import Mathlib

/-!
Verification of the "minipack" binary container codec
(`src/minipack.ts` of dojyorin/deno_bit_utility) against its
natural-language specification.

The TypeScript source is shallowly embedded: byte buffers (`Uint8Array`)
become `List Nat` whose elements are `< 256`, strings become `String`,
thrown exceptions become `Except DecodeError`, and the decode cursor loop
becomes a well-founded recursion on the remaining buffer length.
Platform primitives (`TextEncoder`/`TextDecoder`) and the digest
collaborator `cryptoHash` (whose source file `src/crypto.ts` is not part
of the sources) are modelled from the specification's collaborator
contracts.
-/

/-- Uppercase digit character for a value below the radix, as produced by
JavaScript `Number.prototype.toString(radix).toUpperCase()`. -/
def toDigitChar (n : Nat) : Char :=
  if n < 10 then Char.ofNat (48 + n) else Char.ofNat (55 + n)

/-- Fuel-driven base-16 digit expansion; with fuel at least `n` it equals the
usual most-significant-first digit list of `n`. -/
def hexDigits : Nat → Nat → List Char
  | 0, n => [toDigitChar (n % 16)]
  | fuel + 1, n =>
    if n < 16 then [toDigitChar n]
    else hexDigits fuel (n / 16) ++ [toDigitChar (n % 16)]

/-- Embedding of `data.toString(16).toUpperCase()` for a natural number,
as used by `pad0(data, 2, 16)` in `src/text.ts`. -/
def natToHex (n : Nat) : List Char := hexDigits n n

/-- Embedding of `pad0(data, 2, 16)` from `src/text.ts`:
`data.toString(16).toUpperCase().padStart(2, "0")`. -/
def pad0 (n : Nat) : List Char :=
  List.replicate (2 - (natToHex n).length) '0' ++ natToHex n

/-- Embedding of `hexEncode` from `src/text.ts`:
`[...data].map(n => pad0(n, 2, 16)).join("")`. -/
def hexEncode (data : List Nat) : String :=
  String.mk (data.flatMap pad0)

/-- Modelled from the spec: the platform `TextEncoder` used by `utfEncode`
in `src/text.ts` is an external collaborator; this is the standard UTF-8
encoding of one Unicode scalar value. -/
def utf8EncodeChar (c : Char) : List Nat :=
  let n := c.toNat
  if n < 128 then [n]
  else if n < 2048 then [192 + n / 64, 128 + n % 64]
  else if n < 65536 then [224 + n / 4096, 128 + n / 64 % 64, 128 + n % 64]
  else [240 + n / 262144, 128 + n / 4096 % 64, 128 + n / 64 % 64, 128 + n % 64]

/-- Embedding of `utfEncode` from `src/text.ts`
(`new TextEncoder().encode(data)`): UTF-8 bytes of the string. -/
def utfEncode (s : String) : List Nat :=
  s.data.flatMap utf8EncodeChar

/-- Modelled from the spec: the platform `TextDecoder` used by `utfDecode`
in `src/text.ts` is an external collaborator whose contract is a lossless
round trip for valid UTF-8; this byte automaton inverts `utf8EncodeChar`
and is total on arbitrary byte lists. `need` counts the continuation bytes
still expected and `acc` holds the scalar value accumulated so far. -/
def utfGo : List Nat → Nat → Nat → List Char
  | [], need, _ => if need = 0 then [] else [Char.ofNat 65533]
  | b :: bs, need, acc =>
    if need = 0 then
      if b < 128 then Char.ofNat b :: utfGo bs 0 0
      else if b < 192 then Char.ofNat 65533 :: utfGo bs 0 0
      else if b < 224 then utfGo bs 1 (b - 192)
      else if b < 240 then utfGo bs 2 (b - 224)
      else utfGo bs 3 (b - 240)
    else if need = 1 then Char.ofNat (acc * 64 + (b - 128)) :: utfGo bs 0 0
    else utfGo bs (need - 1) (acc * 64 + (b - 128))

/-- Modelled from the spec: character list produced by decoding a UTF-8
byte list (see `utfGo`). -/
def utfDecodeChars (data : List Nat) : List Char :=
  utfGo data 0 0

/-- Embedding of `utfDecode` from `src/text.ts`
(`new TextDecoder().decode(data)`). -/
def utfDecode (data : List Nat) : String :=
  String.mk (utfDecodeChars data)

/-- Modelled from the spec: rolling state of the digest collaborator model
(see `cryptoHash`). -/
def hashAcc (acc : Nat) : List Nat → Nat
  | [] => acc
  | x :: xs => hashAcc ((acc * 256 + x + 1) % 65537) xs

/-- Modelled from the spec: `cryptoHash` lives in `src/crypto.ts`, which is
not among the sources. The spec requires only a deterministic pure function
of the input bytes with a fixed 32-byte output, used identically by encode
and decode; this model satisfies that contract (and detects any single-byte
change of its input, which the spec's tamper-detection properties assume of
the collaborator). -/
def cryptoHash (b : List Nat) : List Nat :=
  let s := hashAcc 0 b
  s / 65536 :: s / 256 % 256 :: s % 256 :: (List.range 29).map fun k => (s + k) % 256

/-- Big-endian byte quadruple written by `DataView.setUint32(0, n)`. -/
def be32 (n : Nat) : List Nat :=
  [n / 16777216 % 256, n / 65536 % 256, n / 256 % 256, n % 256]

/-- One record written by the loop body of `minipackEncode`
(`src/minipack.ts` lines 24-41): 32-byte digest, 1-byte name length
(`setUint8` wraps modulo 256), 4-byte big-endian body length (`setUint32`
wraps modulo 2^32), then the UTF-8 name bytes and the body bytes. -/
def record (k : String) (v : List Nat) : List Nat :=
  cryptoHash v ++ [(utfEncode k).length % 256] ++ be32 v.length ++ utfEncode k ++ v

/-- Embedding of `minipackEncode` from `src/minipack.ts`: the archive is
the records of the entries laid out back to back, in input order, in a
buffer of exactly the total size. -/
def minipackEncode (files : List (String × List Nat)) : List Nat :=
  files.flatMap fun kv => record kv.1 kv.2

/-- The two exception kinds thrown by `minipackDecode`: `rangeError` for the
platform `RangeError` raised by out-of-bounds `DataView` reads, and
`integrityError` for the `Error` thrown on digest mismatch. -/
inductive DecodeError : Type
  | rangeError : DecodeError
  | integrityError : DecodeError
deriving DecidableEq

instance {ε α : Type} [DecidableEq ε] [DecidableEq α] : DecidableEq (Except ε α) := fun x y =>
  match x, y with
  | .error a, .error b =>
    if h : a = b then isTrue (by rw [h]) else isFalse fun hc => h (Except.error.inj hc)
  | .ok a, .ok b =>
    if h : a = b then isTrue (by rw [h]) else isFalse fun hc => h (Except.ok.inj hc)
  | .error _, .ok _ => isFalse fun hc => Except.noConfusion hc
  | .ok _, .error _ => isFalse fun hc => Except.noConfusion hc

/-- The 32 digest bytes read at cursor `i`:
`archive.subarray(i, i += sizeHash)` (clamped at the buffer end). -/
def storedDigest (a : List Nat) (i : Nat) : List Nat :=
  (a.drop i).take 32

/-- The declared name length: the byte `getUint8(0)` at offset `i + 32`. -/
def nameLenAt (a : List Nat) (i : Nat) : Nat :=
  (a.drop i).getD 32 0

/-- The declared body length: big-endian `getUint32(0)` at offset `i + 33`. -/
def bodyLenAt (a : List Nat) (i : Nat) : Nat :=
  (a.drop i).getD 33 0 * 16777216 + (a.drop i).getD 34 0 * 65536 +
    (a.drop i).getD 35 0 * 256 + (a.drop i).getD 36 0

/-- The name bytes `archive.subarray(i, i += ns)` read after the 37-byte
header (clamped at the buffer end). -/
def nameBytesAt (a : List Nat) (i : Nat) : List Nat :=
  ((a.drop i).drop 37).take (nameLenAt a i)

/-- The body bytes `archive.subarray(i, i += bs)` read after the name
(clamped at the buffer end). -/
def bodyAt (a : List Nat) (i : Nat) : List Nat :=
  ((a.drop i).drop (37 + nameLenAt a i)).take (bodyLenAt a i)

/-- The cursor position after reading one record starting at `i`: every
field read advances the cursor, by `32 + 1 + 4 + ns + bs` in total. -/
def nextRecord (a : List Nat) (i : Nat) : Nat :=
  i + 37 + nameLenAt a i + bodyLenAt a i

/-- Embedding of the read loop of `minipackDecode` (`src/minipack.ts` lines
56-74). A `DataView` header read past the buffer end throws `RangeError`
(the `getUint8` needs `i + 33 ≤ length`, the `getUint32` needs
`i + 37 ≤ length`); the `subarray` reads clamp silently; a digest mismatch
(compared through `hexEncode`) throws `Error`. -/
def minipackDecodeLoop (a : List Nat) (i : Nat) :
    Except DecodeError (List (String × List Nat)) :=
  if h : i < a.length then
    if a.length < i + 33 then .error .rangeError
    else if a.length < i + 37 then .error .rangeError
    else if hexEncode (storedDigest a i) ≠ hexEncode (cryptoHash (bodyAt a i)) then
      .error .integrityError
    else
      (minipackDecodeLoop a (nextRecord a i)).map
        fun fs => (utfDecode (nameBytesAt a i), bodyAt a i) :: fs
  else .ok []
termination_by a.length - i
decreasing_by simp only [nextRecord]; omega

/-- Embedding of `minipackDecode` from `src/minipack.ts`: run the read loop
from cursor 0. -/
def minipackDecode (a : List Nat) :
    Except DecodeError (List (String × List Nat)) :=
  minipackDecodeLoop a 0

/-- Fuel-indexed version of the decode loop, structurally recursive on the
fuel; it returns `none` when the fuel runs out. Used to state that the
source's read loop terminates within a cursor-derived iteration bound. -/
def minipackDecodeF : Nat → List Nat → Nat →
    Option (Except DecodeError (List (String × List Nat)))
  | 0, _, _ => none
  | fuel + 1, a, i =>
    if i < a.length then
      if a.length < i + 33 then some (.error .rangeError)
      else if a.length < i + 37 then some (.error .rangeError)
      else if hexEncode (storedDigest a i) ≠ hexEncode (cryptoHash (bodyAt a i)) then
        some (.error .integrityError)
      else
        (minipackDecodeF fuel a (nextRecord a i)).map
          (Except.map fun fs => (utfDecode (nameBytesAt a i), bodyAt a i) :: fs)
    else some (.ok [])

/-- Cursor positions reached by the decode loop: from `i` the loop reaches
`i` itself, and whenever it reaches the start `j` of a fully verified
record it also reaches the start of the next record. -/
inductive Reaches (a : List Nat) : Nat → Nat → Prop
  | refl (i : Nat) : Reaches a i i
  | step {i j : Nat} : Reaches a i j → j < a.length → ¬ a.length < j + 33 →
      ¬ a.length < j + 37 →
      hexEncode (storedDigest a j) = hexEncode (cryptoHash (bodyAt a j)) →
      Reaches a i (nextRecord a j)

/-! Helper lemmas about the hex encoding. -/

set_option maxRecDepth 4000 in
theorem pad0_byte : ∀ n, n < 256 → pad0 n = [toDigitChar (n / 16), toDigitChar (n % 16)] := by
  decide

theorem toDigitChar_inj : ∀ a, a < 16 → ∀ b, b < 16 → toDigitChar a = toDigitChar b → a = b := by
  decide

theorem hexEncode_inj (u : List Nat) : ∀ v, (∀ x ∈ u, x < 256) → (∀ x ∈ v, x < 256) →
    hexEncode u = hexEncode v → u = v := by
  induction u with
  | nil =>
    intro v _ hv h
    replace h : List.flatMap [] pad0 = List.flatMap v pad0 := congrArg String.data h
    cases v with
    | nil => rfl
    | cons b v =>
      exfalso
      simp only [List.flatMap_nil, List.flatMap_cons] at h
      rw [pad0_byte b (hv b (by simp))] at h
      simp at h
  | cons a u ih =>
    intro v hu hv h
    replace h : List.flatMap (a :: u) pad0 = List.flatMap v pad0 := congrArg String.data h
    cases v with
    | nil =>
      exfalso
      simp only [List.flatMap_nil, List.flatMap_cons] at h
      rw [pad0_byte a (hu a (by simp))] at h
      simp at h
    | cons b v =>
      have ha256 : a < 256 := hu a (by simp)
      have hb256 : b < 256 := hv b (by simp)
      simp only [List.flatMap_cons] at h
      rw [pad0_byte a ha256, pad0_byte b hb256] at h
      simp only [List.cons_append, List.nil_append, List.cons.injEq] at h
      obtain ⟨h1, h2, h3⟩ := h
      have e1 : a / 16 = b / 16 := toDigitChar_inj _ (by omega) _ (by omega) h1
      have e2 : a % 16 = b % 16 := toDigitChar_inj _ (by omega) _ (by omega) h2
      have hab : a = b := by omega
      have htail : u = v := by
        apply ih v (fun x hx => hu x (by simp [hx])) (fun x hx => hv x (by simp [hx]))
        show String.mk (List.flatMap u pad0) = String.mk (List.flatMap v pad0)
        rw [h3]
      rw [hab, htail]

/-! Helper lemmas about the UTF-8 codec model. -/

theorem char_toNat_lt (c : Char) : c.toNat < 1114112 := by
  rcases c with ⟨v, h⟩
  rcases h with h | h
  · exact Nat.lt_trans h (by decide)
  · exact h.2

theorem utfGo_ascii (b : Nat) (bs : List Nat) (h : b < 128) :
    utfGo (b :: bs) 0 0 = Char.ofNat b :: utfGo bs 0 0 := by
  rw [utfGo, if_pos rfl, if_pos h]

theorem utfGo_lead2 (b : Nat) (bs : List Nat) (h1 : ¬ b < 128) (h2 : ¬ b < 192)
    (h3 : b < 224) : utfGo (b :: bs) 0 0 = utfGo bs 1 (b - 192) := by
  rw [utfGo, if_pos rfl, if_neg h1, if_neg h2, if_pos h3]

theorem utfGo_lead3 (b : Nat) (bs : List Nat) (h1 : ¬ b < 128) (h2 : ¬ b < 192)
    (h3 : ¬ b < 224) (h4 : b < 240) : utfGo (b :: bs) 0 0 = utfGo bs 2 (b - 224) := by
  rw [utfGo, if_pos rfl, if_neg h1, if_neg h2, if_neg h3, if_pos h4]

theorem utfGo_lead4 (b : Nat) (bs : List Nat) (h1 : ¬ b < 128) (h2 : ¬ b < 192)
    (h3 : ¬ b < 224) (h4 : ¬ b < 240) : utfGo (b :: bs) 0 0 = utfGo bs 3 (b - 240) := by
  rw [utfGo, if_pos rfl, if_neg h1, if_neg h2, if_neg h3, if_neg h4]

theorem utfGo_cont_last (b : Nat) (bs : List Nat) (acc : Nat) :
    utfGo (b :: bs) 1 acc = Char.ofNat (acc * 64 + (b - 128)) :: utfGo bs 0 0 := by
  rw [utfGo, if_neg (by omega), if_pos rfl]

theorem utfGo_cont (b : Nat) (bs : List Nat) (need acc : Nat) (h0 : need ≠ 0)
    (h1 : need ≠ 1) : utfGo (b :: bs) need acc = utfGo bs (need - 1) (acc * 64 + (b - 128)) := by
  rw [utfGo, if_neg h0, if_neg h1]

theorem utfDecodeChars_encode (c : Char) (rest : List Nat) :
    utfGo (utf8EncodeChar c ++ rest) 0 0 = c :: utfGo rest 0 0 := by
  have hlt : c.toNat < 1114112 := char_toNat_lt c
  by_cases h1 : c.toNat < 128
  · rw [utf8EncodeChar]
    simp only [if_pos h1, List.cons_append, List.nil_append]
    rw [utfGo_ascii _ _ h1, Char.ofNat_toNat]
  · by_cases h2 : c.toNat < 2048
    · rw [utf8EncodeChar]
      simp only [if_neg h1, if_pos h2, List.cons_append, List.nil_append]
      rw [utfGo_lead2 _ _ (by omega) (by omega) (by omega), utfGo_cont_last]
      have harg : (192 + c.toNat / 64 - 192) * 64 + (128 + c.toNat % 64 - 128) = c.toNat := by
        omega
      rw [harg, Char.ofNat_toNat]
    · by_cases h3 : c.toNat < 65536
      · rw [utf8EncodeChar]
        simp only [if_neg h1, if_neg h2, if_pos h3, List.cons_append, List.nil_append]
        rw [utfGo_lead3 _ _ (by omega) (by omega) (by omega) (by omega),
          utfGo_cont _ _ _ _ (by omega) (by omega), utfGo_cont_last]
        have harg : ((224 + c.toNat / 4096 - 224) * 64 + (128 + c.toNat / 64 % 64 - 128)) * 64 +
            (128 + c.toNat % 64 - 128) = c.toNat := by
          omega
        rw [harg, Char.ofNat_toNat]
      · rw [utf8EncodeChar]
        simp only [if_neg h1, if_neg h2, if_neg h3, List.cons_append, List.nil_append]
        rw [utfGo_lead4 _ _ (by omega) (by omega) (by omega) (by omega),
          utfGo_cont _ _ _ _ (by omega) (by omega),
          utfGo_cont _ _ _ _ (by omega) (by omega), utfGo_cont_last]
        have harg : (((240 + c.toNat / 262144 - 240) * 64 + (128 + c.toNat / 4096 % 64 - 128)) *
            64 + (128 + c.toNat / 64 % 64 - 128)) * 64 + (128 + c.toNat % 64 - 128) = c.toNat := by
          omega
        rw [harg, Char.ofNat_toNat]

theorem utfDecodeChars_flatMap (l : List Char) :
    utfDecodeChars (l.flatMap utf8EncodeChar) = l := by
  simp only [utfDecodeChars]
  induction l with
  | nil => rfl
  | cons c cs ih => rw [List.flatMap_cons, utfDecodeChars_encode, ih]

theorem utfDecode_utfEncode (s : String) : utfDecode (utfEncode s) = s := by
  rcases s with ⟨l⟩
  simp only [utfDecode, utfEncode]
  rw [utfDecodeChars_flatMap]

/-! Helper lemmas about the digest model. -/

theorem cryptoHash_length (b : List Nat) : (cryptoHash b).length = 32 := by
  simp [cryptoHash]

theorem hashAcc_lt (xs : List Nat) (acc : Nat) (h : acc < 65537) :
    hashAcc acc xs < 65537 := by
  induction xs generalizing acc with
  | nil => exact h
  | cons x xs ih => exact ih _ (Nat.mod_lt _ (by omega))

theorem cryptoHash_bytes (b : List Nat) : ∀ x ∈ cryptoHash b, x < 256 := by
  intro x hx
  have hs : hashAcc 0 b < 65537 := hashAcc_lt b 0 (by omega)
  simp only [cryptoHash, List.mem_cons, List.mem_map, List.mem_range] at hx
  rcases hx with h | h | h | ⟨k, _, hk⟩ <;> omega

theorem cryptoHash_inj (b₁ b₂ : List Nat) (h : hashAcc 0 b₁ ≠ hashAcc 0 b₂) :
    cryptoHash b₁ ≠ cryptoHash b₂ := by
  intro heq
  apply h
  have h₁ : hashAcc 0 b₁ < 65537 := hashAcc_lt b₁ 0 (by omega)
  have h₂ : hashAcc 0 b₂ < 65537 := hashAcc_lt b₂ 0 (by omega)
  simp only [cryptoHash, List.cons.injEq] at heq
  omega

theorem hashAcc_append (acc : Nat) (l₁ l₂ : List Nat) :
    hashAcc acc (l₁ ++ l₂) = hashAcc (hashAcc acc l₁) l₂ := by
  induction l₁ generalizing acc with
  | nil => rfl
  | cons x xs ih => simp [hashAcc, ih]

theorem hashAcc_inj_acc (xs : List Nat) (a a' : Nat) (ha : a < 65537)
    (ha' : a' < 65537) (hne : a ≠ a') : hashAcc a xs ≠ hashAcc a' xs := by
  induction xs generalizing a a' with
  | nil => exact hne
  | cons x xs ih =>
    simp only [hashAcc]
    apply ih _ _ (Nat.mod_lt _ (by omega)) (Nat.mod_lt _ (by omega))
    intro hstep
    apply hne
    have hmod : a * 256 + (x + 1) ≡ a' * 256 + (x + 1) [MOD 65537] := by
      have : a * 256 + x + 1 = a * 256 + (x + 1) := by omega
      have that : a' * 256 + x + 1 = a' * 256 + (x + 1) := by omega
      unfold Nat.ModEq
      omega
    have hmul : 256 * a ≡ 256 * a' [MOD 65537] := by
      have := Nat.ModEq.add_right_cancel' (x + 1) hmod
      calc 256 * a = a * 256 := Nat.mul_comm _ _
        _ ≡ a' * 256 [MOD 65537] := this
        _ = 256 * a' := Nat.mul_comm _ _
    have := Nat.ModEq.cancel_left_of_coprime (by decide) hmul
    unfold Nat.ModEq at this
    omega

theorem cryptoHash_flip (p t : List Nat) (x x' : Nat) (hx : x < 256)
    (hx' : x' < 256) (hne : x ≠ x') :
    cryptoHash (p ++ x :: t) ≠ cryptoHash (p ++ x' :: t) := by
  apply cryptoHash_inj
  rw [hashAcc_append, hashAcc_append]
  simp only [hashAcc]
  set c := hashAcc 0 p with hc
  apply hashAcc_inj_acc _ _ _ (Nat.mod_lt _ (by omega)) (Nat.mod_lt _ (by omega))
  intro hstep
  apply hne
  have h1 : (c * 256 + x + 1) % 65537 = (c * 256 + x' + 1) % 65537 := hstep
  have h2 : (x + 1) % 65537 = (x' + 1) % 65537 := by
    have : c * 256 + (x + 1) ≡ c * 256 + (x' + 1) [MOD 65537] := by
      unfold Nat.ModEq
      omega
    exact Nat.ModEq.add_left_cancel' _ this
  omega

/-! Helper lemmas about the decode loop. -/

theorem except_map_map {ε α β γ : Type} (g : α → β) (f : β → γ) (x : Except ε α) :
    (x.map g).map f = x.map fun y => f (g y) := by
  cases x <;> rfl

theorem decodeLoop_at_end (a : List Nat) (i : Nat) (h : a.length ≤ i) :
    minipackDecodeLoop a i = .ok [] := by
  rw [minipackDecodeLoop, dif_neg (by omega)]

theorem decodeLoop_record (pre dg nm bd rest : List Nat) (nb b0 b1 b2 b3 : Nat)
    (hd : dg.length = 32) (hnm : nm.length = nb)
    (hbd : bd.length = b0 * 16777216 + b1 * 65536 + b2 * 256 + b3) :
    minipackDecodeLoop (pre ++ (dg ++ (nb :: b0 :: b1 :: b2 :: b3 :: (nm ++ (bd ++ rest)))))
      pre.length =
      if hexEncode dg = hexEncode (cryptoHash bd) then
        (minipackDecodeLoop (pre ++ (dg ++ (nb :: b0 :: b1 :: b2 :: b3 :: (nm ++ (bd ++ rest)))))
          (pre.length + 37 + nb + bd.length)).map fun fs => (utfDecode nm, bd) :: fs
      else Except.error DecodeError.integrityError := by
  set A := pre ++ (dg ++ (nb :: b0 :: b1 :: b2 :: b3 :: (nm ++ (bd ++ rest)))) with hA
  have hlen : A.length = pre.length + 37 + nm.length + bd.length + rest.length := by
    simp [hA, hd]
    omega
  have hdrop : A.drop pre.length = dg ++ (nb :: b0 :: b1 :: b2 :: b3 :: (nm ++ (bd ++ rest))) :=
    List.drop_left' rfl
  have hsd : storedDigest A pre.length = dg := by
    rw [storedDigest, hdrop]
    exact List.take_left' hd
  have hns : nameLenAt A pre.length = nb := by
    rw [nameLenAt, hdrop, List.getD_append_right _ _ _ _ (by omega), hd]
    rfl
  have hsplit : (dg ++ (nb :: b0 :: b1 :: b2 :: b3 :: (nm ++ (bd ++ rest)))).drop 37 =
      nm ++ (bd ++ rest) := by
    rw [show (37 : Nat) = 32 + 5 from rfl, ← List.drop_drop 5 32, List.drop_left' hd]
    rfl
  have hbl : bodyLenAt A pre.length = bd.length := by
    rw [bodyLenAt, hdrop]
    rw [List.getD_append_right _ _ _ _ (by omega), List.getD_append_right _ _ _ _ (by omega),
      List.getD_append_right _ _ _ _ (by omega), List.getD_append_right _ _ _ _ (by omega), hd]
    rw [hbd]
    rfl
  have hnmB : nameBytesAt A pre.length = nm := by
    rw [nameBytesAt, hdrop, hns, hsplit]
    exact List.take_left' hnm
  have hbdB : bodyAt A pre.length = bd := by
    rw [bodyAt, hdrop, hns, hbl]
    rw [← List.drop_drop nb 37, hsplit, List.drop_left' hnm]
    exact List.take_left' rfl
  have hnext : nextRecord A pre.length = pre.length + 37 + nb + bd.length := by
    rw [nextRecord, hns, hbl]
  rw [minipackDecodeLoop, dif_pos (by omega), if_neg (by omega), if_neg (by omega)]
  rw [hsd, hbdB, hnmB, hnext]
  by_cases h : hexEncode dg = hexEncode (cryptoHash bd)
  · simp [h]
  · simp [h]

theorem record_length (k : String) (v : List Nat) :
    (record k v).length = 37 + (utfEncode k).length + v.length := by
  simp [record, be32, cryptoHash_length]
  omega

theorem except_map_id {ε α : Type} (x : Except ε α) : (x.map fun y => y) = x := by
  cases x <;> rfl

theorem encode_cons (k : String) (v : List Nat) (fs : List (String × List Nat)) :
    minipackEncode ((k, v) :: fs) = record k v ++ minipackEncode fs := by
  simp [minipackEncode]

theorem decodeLoop_encode_prefix (files : List (String × List Nat)) :
    ∀ pre tail : List Nat,
    (∀ kv ∈ files, (utfEncode kv.1).length ≤ 255 ∧ kv.2.length < 4294967296) →
    minipackDecodeLoop (pre ++ (minipackEncode files ++ tail)) pre.length =
      (minipackDecodeLoop (pre ++ (minipackEncode files ++ tail))
        (pre.length + (minipackEncode files).length)).map fun fs => files ++ fs := by
  induction files with
  | nil =>
    intro pre tail _
    simp only [minipackEncode, List.flatMap_nil, List.nil_append, List.length_nil, Nat.add_zero]
    exact (except_map_id _).symm
  | cons kv fs ih =>
    intro pre tail hvalid
    obtain ⟨k, v⟩ := kv
    have hk : (utfEncode k).length ≤ 255 := (hvalid (k, v) (by simp)).1
    have hv : v.length < 4294967296 := (hvalid (k, v) (by simp)).2
    have hshape : pre ++ (minipackEncode ((k, v) :: fs) ++ tail) =
        pre ++ (cryptoHash v ++ (((utfEncode k).length % 256) :: (v.length / 16777216 % 256) ::
          (v.length / 65536 % 256) :: (v.length / 256 % 256) :: (v.length % 256) ::
          (utfEncode k ++ (v ++ (minipackEncode fs ++ tail))))) := by
      rw [encode_cons, record, be32]
      simp [List.append_assoc]
    rw [hshape]
    rw [decodeLoop_record pre (cryptoHash v) (utfEncode k) v (minipackEncode fs ++ tail)
      ((utfEncode k).length % 256) (v.length / 16777216 % 256) (v.length / 65536 % 256)
      (v.length / 256 % 256) (v.length % 256) (cryptoHash_length v)
      (Nat.mod_eq_of_lt (by omega)).symm (by omega)]
    rw [if_pos rfl]
    have hpre' : (pre ++ record k v).length = pre.length + 37 + (utfEncode k).length % 256 +
        v.length := by
      rw [List.length_append, record_length]
      have : (utfEncode k).length % 256 = (utfEncode k).length := Nat.mod_eq_of_lt (by omega)
      omega
    have hassoc : (pre ++ record k v) ++ (minipackEncode fs ++ tail) =
        pre ++ (cryptoHash v ++ (((utfEncode k).length % 256) :: (v.length / 16777216 % 256) ::
          (v.length / 65536 % 256) :: (v.length / 256 % 256) :: (v.length % 256) ::
          (utfEncode k ++ (v ++ (minipackEncode fs ++ tail))))) := by
      rw [record, be32]
      simp [List.append_assoc]
    have ihspec := ih (pre ++ record k v) tail (fun kv hkv => hvalid kv (by simp [hkv]))
    rw [hassoc, hpre'] at ihspec
    rw [ihspec, except_map_map]
    have hlen2 : pre.length + 37 + (utfEncode k).length % 256 + v.length +
        (minipackEncode fs).length = pre.length + (minipackEncode ((k, v) :: fs)).length := by
      rw [encode_cons, List.length_append, record_length]
      have : (utfEncode k).length % 256 = (utfEncode k).length := Nat.mod_eq_of_lt (by omega)
      omega
    rw [hlen2, utfDecode_utfEncode]
    congr 1

theorem minipack_roundtrip_general (files : List (String × List Nat))
    (h : ∀ kv ∈ files, (utfEncode kv.1).length ≤ 255 ∧ kv.2.length < 4294967296) :
    minipackDecode (minipackEncode files) = .ok files := by
  have hp := decodeLoop_encode_prefix files [] [] h
  simp only [List.nil_append, List.append_nil, List.length_nil, Nat.zero_add] at hp
  rw [minipackDecode, hp, decodeLoop_at_end _ _ (by omega)]
  exact congrArg Except.ok (List.append_nil files)

theorem reaches_error (a : List Nat) {i j : Nat} (hr : Reaches a i j) {e : DecodeError}
    (he : minipackDecodeLoop a j = .error e) : minipackDecodeLoop a i = .error e := by
  induction hr with
  | refl => exact he
  | step hr hlt h33 h37 heq ihr =>
    apply ihr
    rw [minipackDecodeLoop, dif_pos hlt, if_neg h33, if_neg h37, if_neg (not_not_intro heq)]
    rw [he]
    rfl

theorem decodeF_complete (fuel : Nat) : ∀ (a : List Nat) (i : Nat), a.length ≤ i + 37 * fuel →
    minipackDecodeF (fuel + 1) a i = some (minipackDecodeLoop a i) := by
  induction fuel with
  | zero =>
    intro a i hle
    rw [minipackDecodeF, if_neg (by omega), decodeLoop_at_end a i (by omega)]
  | succ f ihf =>
    intro a i hle
    by_cases hi : i < a.length
    · rw [minipackDecodeF, if_pos hi, minipackDecodeLoop, dif_pos hi]
      by_cases h33 : a.length < i + 33
      · rw [if_pos h33, if_pos h33]
      · rw [if_neg h33, if_neg h33]
        by_cases h37 : a.length < i + 37
        · rw [if_pos h37, if_pos h37]
        · rw [if_neg h37, if_neg h37]
          by_cases hmis : hexEncode (storedDigest a i) ≠ hexEncode (cryptoHash (bodyAt a i))
          · rw [if_pos hmis, if_pos hmis]
          · rw [if_neg hmis, if_neg hmis]
            have hnext : a.length ≤ nextRecord a i + 37 * f := by
              rw [nextRecord]
              omega
            rw [ihf a (nextRecord a i) hnext]
            rfl
    · rw [minipackDecodeF, if_neg hi, decodeLoop_at_end a i (by omega)]

theorem decodeF_terminates (a : List Nat) :
    minipackDecodeF (a.length / 37 + 2) a 0 = some (minipackDecode a) := by
  rw [minipackDecode, show a.length / 37 + 2 = (a.length / 37 + 1) + 1 from by omega]
  exact decodeF_complete (a.length / 37 + 1) a 0 (by omega)

/-! Claim theorems. -/

/-- C1: for every finite sequence of entries in which each name's UTF-8
encoding is at most 255 bytes and each body is at most 2^32 - 1 bytes,
`minipackDecode (minipackEncode entries)` returns exactly the input
entries, equal in name, body and order. -/
theorem minipack_roundtrip (files : List (String × List Nat))
    (h : ∀ kv ∈ files, (utfEncode kv.1).length ≤ 255 ∧ kv.2.length < 4294967296) :
    minipackDecode (minipackEncode files) = .ok files :=
  minipack_roundtrip_general files h

/-- Witness for C1 at a concrete two-entry input. -/
theorem minipack_roundtrip_witness :
    (∀ kv ∈ [("a", [1, 2, 3]), ("b", [4, 5])],
      (utfEncode kv.1).length ≤ 255 ∧ kv.2.length < 4294967296) ∧
    minipackDecode (minipackEncode [("a", [1, 2, 3]), ("b", [4, 5])]) =
      .ok [("a", [1, 2, 3]), ("b", [4, 5])] :=
  ⟨by decide, minipack_roundtrip [("a", [1, 2, 3]), ("b", [4, 5])] (by decide)⟩

/-- C2: whenever the decode loop reaches a record whose 32 stored digest
bytes differ from the digest recomputed over that record's extracted body,
`minipackDecode` aborts with the integrity error and returns no entries at
all. -/
theorem minipack_digest_mismatch_aborts (a : List Nat) (i : Nat)
    (hb : ∀ x ∈ a, x < 256) (hr : Reaches a 0 i) (hfit : i + 37 ≤ a.length)
    (hmis : storedDigest a i ≠ cryptoHash (bodyAt a i)) :
    minipackDecode a = .error .integrityError := by
  rw [minipackDecode]
  apply reaches_error a hr
  have hsdb : ∀ x ∈ storedDigest a i, x < 256 := by
    intro x hx
    apply hb
    exact ((List.take_sublist _ _).trans (List.drop_sublist _ _)).subset hx
  have hcond : hexEncode (storedDigest a i) ≠ hexEncode (cryptoHash (bodyAt a i)) := fun hhex =>
    hmis (hexEncode_inj _ _ hsdb (cryptoHash_bytes _) hhex)
  rw [minipackDecodeLoop, dif_pos (by omega), if_neg (by omega), if_neg (by omega), if_pos hcond]

/-- Witness for C2: a 37-byte all-zero buffer parses as one record whose
stored digest (32 zero bytes) differs from the digest of its empty body. -/
theorem minipack_digest_mismatch_aborts_witness :
    (∀ x ∈ List.replicate 37 0, x < 256) ∧
    storedDigest (List.replicate 37 0) 0 ≠ cryptoHash (bodyAt (List.replicate 37 0) 0) ∧
    minipackDecode (List.replicate 37 0) = .error .integrityError :=
  ⟨by decide, by decide,
    minipack_digest_mismatch_aborts (List.replicate 37 0) 0 (by decide) (Reaches.refl 0)
      (by decide) (by decide)⟩

/-- Archive whose single record declares a five-byte body although only
three bytes remain after the name: the `subarray` body read clamps to the
final three bytes, and the stored digest was computed over exactly those
clamped bytes. -/
def overrunArchive : List Nat :=
  cryptoHash [9, 9, 9] ++ [0] ++ [0, 0, 0, 5] ++ [9, 9, 9]

/-- C3 (counterexample): a record whose declared body length advances the
cursor past the end of the buffer (to 42 in a 40-byte archive) does not
make `minipackDecode` fail; decode returns the silently clamped body, and
it succeeds even though the cursor does not land exactly on the buffer
length. -/
theorem minipack_truncation_counterexample :
    overrunArchive.length = 40 ∧ bodyLenAt overrunArchive 0 = 5 ∧
    nextRecord overrunArchive 0 = 42 ∧
    minipackDecode overrunArchive = .ok [("", [9, 9, 9])] := by
  refine ⟨by decide, by decide, by decide, ?_⟩
  have h := decodeF_terminates overrunArchive
  have h2 : minipackDecodeF (overrunArchive.length / 37 + 2) overrunArchive 0 =
      some (.ok [("", [9, 9, 9])]) := by decide
  exact Option.some.inj (h.symm.trans h2)

/-- C3 (amended): whenever the decode loop reaches a record start with the
buffer too short to hold the fixed 37-byte header, `minipackDecode` fails
with a range error; but name or body reads that would pass the end of the
buffer are clamped, not detected, so decode can succeed with the cursor
landing beyond the buffer length when the stored digest matches the digest
of the clamped body. -/
theorem minipack_truncated_header_fails (a : List Nat) (i : Nat) (hr : Reaches a 0 i)
    (hi : i < a.length) (hshort : a.length < i + 37) :
    minipackDecode a = .error .rangeError := by
  rw [minipackDecode]
  apply reaches_error a hr
  rw [minipackDecodeLoop, dif_pos hi]
  by_cases h33 : a.length < i + 33
  · rw [if_pos h33]
  · rw [if_neg h33, if_pos (by omega)]

/-- Witness for the amended C3 at a one-byte buffer. -/
theorem minipack_truncated_header_fails_witness :
    (0 : Nat) < ([0] : List Nat).length ∧ ([0] : List Nat).length < 0 + 37 ∧
    minipackDecode [0] = .error .rangeError :=
  ⟨by decide, by decide,
    minipack_truncated_header_fails [0] 0 (Reaches.refl 0) (by decide) (by decide)⟩

/-- C6: the encoded archive's length is exactly the sum over all entries of
32 + 1 + 4 + (UTF-8 byte length of the name) + (byte length of the body). -/
theorem minipack_encode_length (files : List (String × List Nat)) :
    (minipackEncode files).length =
      (files.map fun kv => 32 + 1 + 4 + (utfEncode kv.1).length + kv.2.length).sum := by
  induction files with
  | nil => rfl
  | cons kv fs ih =>
    obtain ⟨k, v⟩ := kv
    rw [encode_cons, List.length_append, record_length, List.map_cons, List.sum_cons, ih]

/-- C7 (counterexample): the single entry `("a.txt", [1, 2, 3])` encodes to
an archive of 45 bytes, because the UTF-8 encoding of the name `"a.txt"`
occupies 5 bytes; the claimed length 41 (which counts the name as a single
byte) is wrong. -/
theorem minipack_single_entry_counterexample :
    (minipackEncode [("a.txt", [1, 2, 3])]).length = 45 ∧
    ¬ (minipackEncode [("a.txt", [1, 2, 3])]).length = 41 := by
  constructor <;> decide

/-- C7 (amended): encoding the single entry `("a.txt", body)` with a
three-byte body produces an archive of exactly 32+1+4+5+3 = 45 bytes (the
name `"a.txt"` is 5 UTF-8 bytes), and decoding that archive returns exactly
`[("a.txt", body)]`. -/
theorem minipack_single_entry (body : List Nat) (h : body.length = 3) :
    (minipackEncode [("a.txt", body)]).length = 45 ∧
    minipackDecode (minipackEncode [("a.txt", body)]) = .ok [("a.txt", body)] := by
  constructor
  · have e : (minipackEncode [("a.txt", body)]).length =
        37 + (utfEncode "a.txt").length + body.length := by
      rw [encode_cons]
      simp only [minipackEncode, List.flatMap_nil, List.append_nil]
      exact record_length "a.txt" body
    rw [e, h]
    decide
  · apply minipack_roundtrip_general
    intro kv hkv
    simp only [List.mem_singleton] at hkv
    rw [hkv]
    refine ⟨?_, ?_⟩
    · show (utfEncode "a.txt").length ≤ 255
      decide
    · show body.length < 4294967296
      omega

/-- Witness for C7 at the body `[1, 2, 3]`. -/
theorem minipack_single_entry_witness :
    ([1, 2, 3] : List Nat).length = 3 ∧
    ((minipackEncode [("a.txt", [1, 2, 3])]).length = 45 ∧
      minipackDecode (minipackEncode [("a.txt", [1, 2, 3])]) = .ok [("a.txt", [1, 2, 3])]) :=
  ⟨by decide, minipack_single_entry [1, 2, 3] (by decide)⟩

/-- C8: encoding the empty sequence yields the empty buffer, and decoding
the empty buffer yields the empty sequence. -/
theorem minipack_empty : minipackEncode [] = [] ∧ minipackDecode [] = .ok [] := by
  refine ⟨rfl, ?_⟩
  rw [minipackDecode, decodeLoop_at_end _ _ (by simp)]

/-- C10: `minipackDecode` terminates on every input buffer: each loop
iteration advances the cursor from `i` to `nextRecord a i`, which is at
least `i + 37` even for zero-length names and bodies, so the fuel-indexed
loop `minipackDecodeF` finishes within `length / 37 + 2` iterations and
agrees with `minipackDecode`. -/
theorem minipack_decode_terminates :
    (∀ (a : List Nat) (i : Nat), i + 37 ≤ nextRecord a i) ∧
    ∀ a : List Nat, minipackDecodeF (a.length / 37 + 2) a 0 = some (minipackDecode a) :=
  ⟨fun a i => by rw [nextRecord]; omega, decodeF_terminates⟩

set_option maxRecDepth 8000 in
/-- C4 (code-bug exhibit): `minipackEncode` performs no length check at
all. Encoding a single entry whose name's UTF-8 encoding is 256 bytes does
not fail: the archive is produced anyway, and its stored name_len byte at
offset 32 is `256 % 256 = 0`, a wrapped version of the true length. -/
theorem minipack_encode_name_overflow_wraps :
    (utfEncode (String.mk (List.replicate 256 'a'))).length = 256 ∧
    (minipackEncode [(String.mk (List.replicate 256 'a'), [])]).getD 32 0 = 0 ∧
    (minipackEncode [(String.mk (List.replicate 256 'a'), [])]).length = 293 := by
  refine ⟨?_, ?_, ?_⟩ <;> decide

theorem decode_prefix_then_error (files : List (String × List Nat)) (tail : List Nat)
    (h : ∀ kv ∈ files, (utfEncode kv.1).length ≤ 255 ∧ kv.2.length < 4294967296)
    {e : DecodeError}
    (he : minipackDecodeLoop (minipackEncode files ++ tail) (minipackEncode files).length =
      .error e) :
    minipackDecode (minipackEncode files ++ tail) = .error e := by
  rw [minipackDecode]
  have hp := decodeLoop_encode_prefix files [] tail h
  simp only [List.nil_append, List.length_nil, Nat.zero_add] at hp
  rw [hp, he]
  rfl

theorem decodeLoop_record_mismatch (pre dg nm bd rest : List Nat) (nb b0 b1 b2 b3 : Nat)
    (hd : dg.length = 32) (hnm : nm.length = nb)
    (hbd : bd.length = b0 * 16777216 + b1 * 65536 + b2 * 256 + b3)
    (hne : hexEncode dg ≠ hexEncode (cryptoHash bd)) :
    minipackDecodeLoop (pre ++ (dg ++ (nb :: b0 :: b1 :: b2 :: b3 :: (nm ++ (bd ++ rest)))))
      pre.length = .error .integrityError := by
  rw [decodeLoop_record pre dg nm bd rest nb b0 b1 b2 b3 hd hnm hbd, if_neg hne]

/-- C5: in an archive produced by `minipackEncode`, changing any single
byte of a stored 32-byte digest field to a different byte value, or
flipping any single byte within a body segment, makes `minipackDecode`
report an integrity failure instead of returning the tampered entry. -/
theorem minipack_tamper_detected :
    (∀ (files₁ files₂ : List (String × List Nat)) (k : String) (v dp ds : List Nat) (x x' : Nat),
      (∀ kv ∈ files₁, (utfEncode kv.1).length ≤ 255 ∧ kv.2.length < 4294967296) →
      (utfEncode k).length ≤ 255 → v.length < 4294967296 →
      cryptoHash v = dp ++ x :: ds → x' < 256 → x' ≠ x →
      minipackDecode (minipackEncode files₁ ++
        ((dp ++ x' :: ds) ++ [(utfEncode k).length % 256] ++ be32 v.length ++ utfEncode k ++ v) ++
        minipackEncode files₂) = .error .integrityError) ∧
    (∀ (files₁ files₂ : List (String × List Nat)) (k : String) (vp vs : List Nat) (x x' : Nat),
      (∀ kv ∈ files₁, (utfEncode kv.1).length ≤ 255 ∧ kv.2.length < 4294967296) →
      (utfEncode k).length ≤ 255 → (vp ++ x :: vs).length < 4294967296 →
      (∀ y ∈ vp ++ x :: vs, y < 256) → x' < 256 → x' ≠ x →
      minipackDecode (minipackEncode files₁ ++
        (cryptoHash (vp ++ x :: vs) ++ [(utfEncode k).length % 256] ++
          be32 (vp ++ x :: vs).length ++ utfEncode k ++ (vp ++ x' :: vs)) ++
        minipackEncode files₂) = .error .integrityError) := by
  constructor
  · intro files₁ files₂ k v dp ds x x' h1 hk hv hsplit hx' hne
    have hdg32 : (dp ++ x' :: ds).length = 32 := by
      have hc := congrArg List.length hsplit
      rw [cryptoHash_length] at hc
      simp only [List.length_append, List.length_cons] at hc ⊢
      omega
    have hbytes : ∀ y ∈ dp ++ x' :: ds, y < 256 := by
      intro y hy
      rcases List.mem_append.mp hy with hy | hy
      · exact cryptoHash_bytes v y (by rw [hsplit]; exact List.mem_append.mpr (Or.inl hy))
      · rcases List.mem_cons.mp hy with hy | hy
        · omega
        · exact cryptoHash_bytes v y
            (by rw [hsplit]; exact List.mem_append.mpr (Or.inr (List.mem_cons.mpr (Or.inr hy))))
    have hhexne : hexEncode (dp ++ x' :: ds) ≠ hexEncode (cryptoHash v) := by
      intro hh
      have heq := hexEncode_inj _ _ hbytes (cryptoHash_bytes v) hh
      rw [hsplit] at heq
      have hcons := List.append_cancel_left heq
      injection hcons with hxx _
      exact hne hxx
    have hsh : minipackEncode files₁ ++
        ((dp ++ x' :: ds) ++ [(utfEncode k).length % 256] ++ be32 v.length ++ utfEncode k ++ v) ++
        minipackEncode files₂ =
        minipackEncode files₁ ++ ((dp ++ x' :: ds) ++ (((utfEncode k).length % 256) ::
          (v.length / 16777216 % 256) :: (v.length / 65536 % 256) :: (v.length / 256 % 256) ::
          (v.length % 256) :: (utfEncode k ++ (v ++ minipackEncode files₂)))) := by
      rw [be32]
      simp [List.append_assoc]
    rw [hsh]
    exact decode_prefix_then_error files₁ _ h1
      (decodeLoop_record_mismatch (minipackEncode files₁) (dp ++ x' :: ds) (utfEncode k) v
        (minipackEncode files₂) ((utfEncode k).length % 256) (v.length / 16777216 % 256)
        (v.length / 65536 % 256) (v.length / 256 % 256) (v.length % 256) hdg32
        (Nat.mod_eq_of_lt (by omega)).symm (by omega) hhexne)
  · intro files₁ files₂ k vp vs x x' h1 hk hv hbytes hx' hne
    have hxlt : x < 256 := hbytes x (List.mem_append.mpr (Or.inr (List.mem_cons.mpr (Or.inl rfl))))
    have hlen' : (vp ++ x' :: vs).length = (vp ++ x :: vs).length := by simp
    have hhexne : hexEncode (cryptoHash (vp ++ x :: vs)) ≠
        hexEncode (cryptoHash (vp ++ x' :: vs)) := fun hh =>
      cryptoHash_flip vp vs x x' hxlt hx' (Ne.symm hne)
        (hexEncode_inj _ _ (cryptoHash_bytes _) (cryptoHash_bytes _) hh)
    have hsh : minipackEncode files₁ ++
        (cryptoHash (vp ++ x :: vs) ++ [(utfEncode k).length % 256] ++
          be32 (vp ++ x :: vs).length ++ utfEncode k ++ (vp ++ x' :: vs)) ++
        minipackEncode files₂ =
        minipackEncode files₁ ++ (cryptoHash (vp ++ x :: vs) ++
          (((utfEncode k).length % 256) :: ((vp ++ x :: vs).length / 16777216 % 256) ::
          ((vp ++ x :: vs).length / 65536 % 256) :: ((vp ++ x :: vs).length / 256 % 256) ::
          ((vp ++ x :: vs).length % 256) :: (utfEncode k ++ ((vp ++ x' :: vs) ++
            minipackEncode files₂)))) := by
      rw [be32]
      simp [List.append_assoc]
    rw [hsh]
    exact decode_prefix_then_error files₁ _ h1
      (decodeLoop_record_mismatch (minipackEncode files₁) (cryptoHash (vp ++ x :: vs))
        (utfEncode k) (vp ++ x' :: vs) (minipackEncode files₂) ((utfEncode k).length % 256)
        ((vp ++ x :: vs).length / 16777216 % 256) ((vp ++ x :: vs).length / 65536 % 256)
        ((vp ++ x :: vs).length / 256 % 256) ((vp ++ x :: vs).length % 256)
        (cryptoHash_length _) (Nat.mod_eq_of_lt (by omega)).symm
        (by rw [hlen']; omega) hhexne)

/-- Witness for C5: flipping the first byte of the stored digest of a
one-entry archive makes decode fail with the integrity error. -/
theorem minipack_tamper_detected_witness :
    cryptoHash [1, 2, 3] = [] ++ (cryptoHash [1, 2, 3]).headD 0 :: (cryptoHash [1, 2, 3]).tail ∧
    ((cryptoHash [1, 2, 3]).headD 0 + 1) % 256 ≠ (cryptoHash [1, 2, 3]).headD 0 ∧
    minipackDecode (minipackEncode [] ++
      (([] ++ ((cryptoHash [1, 2, 3]).headD 0 + 1) % 256 :: (cryptoHash [1, 2, 3]).tail) ++
        [(utfEncode "a").length % 256] ++ be32 ([1, 2, 3] : List Nat).length ++ utfEncode "a" ++
        [1, 2, 3]) ++ minipackEncode []) = .error .integrityError :=
  ⟨by decide, by decide,
    minipack_tamper_detected.1 [] [] "a" [1, 2, 3] [] (cryptoHash [1, 2, 3]).tail
      ((cryptoHash [1, 2, 3]).headD 0) (((cryptoHash [1, 2, 3]).headD 0 + 1) % 256)
      (by decide) (by decide) (by decide) (by decide) (by decide) (by decide)⟩
